import Mathlib

/-!
Verification of the embee generation engine (`src/engine.cpp`).

The C++ engine is embedded shallowly:
* `float` scores become `ℚ`; the C library `expf` becomes an explicit
  function parameter `pexp : ℚ → ℚ` (the theorems assume only the
  properties of `expf` they need, such as positivity);
* the two `std::random_device`-driven randomness sources of the code
  (the placeholder forward passes, which fill the logits with random
  values, and the `std::mt19937` used for the sampling draw) become an
  explicit `Entropy` value holding the stream of logit vectors returned
  by successive forward passes and the stream of uniform numbers in
  `[0,1)` produced for the sampling draws;
* `std::vector<float>` becomes `List ℚ`, token ids (`int32_t`) become `ℤ`,
  vector indices become `ℕ`;
* the streaming callback, a stateful `std::function`, becomes a state
  threading function `σ → ℤ → String → σ × Bool`.

`std::sort` with the comparator `probs[a] > probs[b]` leaves the order of
equal keys unspecified; the embedding fixes the stable order
(`List.insertionSort` with `≥`), which is one of the permitted outcomes.
-/

set_option allowUnsafeReducibility true in
attribute [semireducible] Rat.add Rat.mul Rat.inv Rat.sub Rat.div

namespace Embee

/-- Embedding of `GenerationConfig` from `engine.h`, with its default field values
(`batch_size` is never read by the engine and is omitted). -/
structure GenerationConfig where
  max_length : ℕ := 512
  temperature : ℚ := 4/5
  top_p : ℚ := 9/10
  repetition_penalty : ℚ := 11/10
  use_cache : Bool := true
deriving Repr, DecidableEq

/-- The fields of `ModelConfig` (`model.h`) that the engine reads. -/
structure ModelCfg where
  n_vocab : ℕ
  n_embd : ℕ
  n_layers : ℕ
  n_heads : ℕ
  n_kv_heads : ℕ
  max_seq_len : ℕ
deriving Repr, DecidableEq

/-- The model together with the tokenizer interface the engine calls
(`Model::tokenizer()` gives `encode`, `decode`, `eos_token`). -/
structure ModelIface where
  cfg : ModelCfg
  encode : String → List ℤ
  decode : List ℤ → String
  eos_token : Option ℤ

/-- The randomness consumed by one `generate_with_callback` call:
`fwdLogits k` is the logit vector produced by the `k`-th forward pass
(the code's placeholder `process_tokens` / `process_single_token` fill
`last_logits_` from a fresh `std::random_device`), and `draws k` is the
`k`-th uniform number in `[0,1)` drawn from the `std::mt19937` for
sampling (`uniform_real_distribution(0, norm_factor)` is modelled as
`draws k * norm_factor`). -/
structure Entropy where
  fwdLogits : ℕ → List ℚ
  draws : ℕ → ℚ

/-- The engine-private state relevant to the claims: whether the KV cache
was set up, and the per-layer buffer sizes of `key_cache_` / `value_cache_`. -/
structure EngineState where
  kv_cache_ready : Bool
  key_cache_sizes : List ℕ
  value_cache_sizes : List ℕ
deriving Repr, DecidableEq

/-- Embedding of the cache setup routine of `Engine::Impl` (called with `config.max_length`): each of the
`n_layers` per-layer buffers is resized to `max_seq_len * kv_dim` where
`kv_dim = n_kv_heads * head_size_` and `head_size_ = n_embd / n_heads`. -/
def initKvCache (mc : ModelCfg) (max_seq_len : ℕ) (st : EngineState) : EngineState :=
  let head_size := mc.n_embd / mc.n_heads
  let kv_dim := mc.n_kv_heads * head_size
  { st with
    kv_cache_ready := true
    key_cache_sizes := List.replicate mc.n_layers (max_seq_len * kv_dim)
    value_cache_sizes := List.replicate mc.n_layers (max_seq_len * kv_dim) }

/-- The in-place update `engine.cpp` applies to one penalized slot:
`if (logits[token] > 0) logits[token] /= penalty; else logits[token] *= penalty;` -/
def applyRule (penalty x : ℚ) : ℚ :=
  if x > 0 then x / penalty else x * penalty

/-- One iteration of the loop in `apply_repetition_penalty`: the slot of
`token` is updated only when `token >= 0 && (size_t)token < logits.size()`. -/
def penalizeOne (logits : List ℚ) (token : ℤ) (penalty : ℚ) : List ℚ :=
  if 0 ≤ token ∧ token.toNat < logits.length then
    logits.set token.toNat (applyRule penalty (logits.getD token.toNat 0))
  else logits

/-- Embedding of `Engine::Impl::apply_repetition_penalty(logits, tokens, penalty)`:
iterate `penalizeOne` over the history, in order. -/
def apply_repetition_penalty (logits : List ℚ) (tokens : List ℤ) (penalty : ℚ) : List ℚ :=
  tokens.foldl (fun sc t => penalizeOne sc t penalty) logits

/-- Embedding of `*std::max_element(logits.begin(), logits.end())` (the code only calls
it on vectors of length `n_vocab`; on `[]` the embedding returns `0`). -/
def maxLogit (logits : List ℚ) : ℚ :=
  logits.foldl max (logits.headD 0)

/-- The softmax block of `sample_token`: subtract the maximum, apply the
exponential, divide by the sum of the exponentials. -/
def softmax (pexp : ℚ → ℚ) (logits : List ℚ) : List ℚ :=
  let m := maxLogit logits
  let exps := logits.map (fun x => pexp (x - m))
  let s := exps.sum
  exps.map (fun e => e / s)

/-- Embedding of `std::distance(probs.begin(), std::max_element(...))`:
index of the first maximal element (ties go to the lowest index). -/
def argmaxAux : List ℚ → ℚ → ℕ → ℕ → ℕ
  | [], _, _, best => best
  | x :: xs, bv, i, best =>
      if x > bv then argmaxAux xs x (i+1) i else argmaxAux xs bv (i+1) best

/-- Index of the first maximal element of a list (0 on `[]`). -/
def argmaxList : List ℚ → ℕ
  | [] => 0
  | x :: xs => argmaxAux xs x 1 0

/-- The index vector `iota(0, n)` sorted by
`probs[a] > probs[b]` (descending probability; `std::sort` leaves ties
unspecified, the embedding takes the stable order, ties by ascending index). -/
def sortIdx (probs : List ℚ) : List ℕ :=
  (List.range probs.length).insertionSort
    (fun a b => probs.getD b 0 ≤ probs.getD a 0)

/-- The cutoff scan of `sample_token`: starting from accumulator `acc` at
position `i`, return `some` of the first position where the cumulative
probability reaches `top_p`, else `none`. -/
def cutoffAux (probs : List ℚ) (top_p : ℚ) : List ℕ → ℚ → ℕ → Option ℕ
  | [], _, _ => none
  | j :: js, acc, i =>
      if top_p ≤ acc + probs.getD j 0 then some i
      else cutoffAux probs top_p js (acc + probs.getD j 0) (i+1)

/-- Embedding of the `cutoff_idx` computation of `sample_token`: the first position of the sorted index
list where the cumulative probability reaches `top_p`;
`indices.size() - 1` when no position reaches it. -/
def cutoffIdx (probs : List ℚ) (indices : List ℕ) (top_p : ℚ) : ℕ :=
  (cutoffAux probs top_p indices 0 0).getD (indices.length - 1)

/-- The drawing scan of `sample_token`: walk the nucleus accumulating the
CDF, return the first index whose CDF reaches the draw `r`, else `none`. -/
def pickAux (probs : List ℚ) (r : ℚ) : List ℕ → ℚ → Option ℕ
  | [], _ => none
  | j :: js, cdf =>
      if r ≤ cdf + probs.getD j 0 then some j
      else pickAux probs r js (cdf + probs.getD j 0)

/-- Embedding of `Engine::Impl::sample_token(logits, top_p, gen)`.  `u` is the uniform
number in `[0,1)` the `std::mt19937` yields for this draw, so the value of
`uniform_real_distribution(0.0f, norm_factor)(gen)` is `u * norm_factor`.
The float literal `1e-6f` is embedded as `1/1000000`. -/
def sample_token (pexp : ℚ → ℚ) (logits : List ℚ) (top_p : ℚ) (u : ℚ) : ℕ :=
  let probs := softmax pexp logits
  if top_p < 1/1000000 then
    argmaxList probs
  else
    let indices := sortIdx probs
    let cutoff := cutoffIdx probs indices top_p
    let nucleus := indices.take (cutoff + 1)
    let norm_factor := (nucleus.map (fun j => probs.getD j 0)).sum
    let r := u * norm_factor
    match pickAux probs r nucleus 0 with
    | some j => j
    | none => indices.headD 0

/-- The logit adjustment done by the generation loop before sampling:
temperature scaling (skipped when `temperature` is not `> 0`) followed by
the repetition penalty (skipped when `repetition_penalty == 1.0`). -/
def step_logits (cfg : GenerationConfig) (lastLogits : List ℚ) (tokens : List ℤ) : List ℚ :=
  let l1 := if 0 < cfg.temperature then lastLogits.map (fun x => x / cfg.temperature)
            else lastLogits
  if cfg.repetition_penalty ≠ 1 then
    apply_repetition_penalty l1 tokens cfg.repetition_penalty
  else l1

/-- One loop iteration's sampled token: adjust the logits, then
`sample_token` with the configured `top_p` and the uniform draw `u`. -/
def sample_step (pexp : ℚ → ℚ) (cfg : GenerationConfig) (lastLogits : List ℚ)
    (tokens : List ℤ) (u : ℚ) : ℕ :=
  sample_token pexp (step_logits cfg lastLogits tokens) cfg.top_p u

/-- Observable outcome of the generation loop: the `(token, text)` events
delivered to the callback in order, the final token sequence, the number
of forward-pass calls made, and the final callback state. -/
structure LoopResult (σ : Type) where
  events : List (ℤ × String)
  tokens : List ℤ
  fwd_calls : ℕ
  cb_state : σ

/-- The `while (generated_count < config.max_length)` loop of
`generate_with_callback`, recursing on the remaining iteration count.
`k` numbers the entropy consumed so far: iteration `k` samples with draw
`ent.draws k` and its single-token forward pass produces
`ent.fwdLogits (k+1)`.  When the sampled token equals the tokenizer's
end-of-sequence token the loop breaks before appending the token, before
the forward pass and before the callback. -/
def decodeLoop {σ : Type} (pexp : ℚ → ℚ) (mi : ModelIface) (cfg : GenerationConfig)
    (ent : Entropy) (cb : σ → ℤ → String → σ × Bool) :
    ℕ → ℕ → List ℤ → List ℚ → σ → LoopResult σ
  | 0, _, tokens, _, s => ⟨[], tokens, 0, s⟩
  | n+1, k, tokens, lastLogits, s =>
      let next : ℕ := sample_step pexp cfg lastLogits tokens (ent.draws k)
      if mi.eos_token = some (next : ℤ) then
        ⟨[], tokens, 0, s⟩
      else
        let tokens2 := tokens ++ [(next : ℤ)]
        let newLogits := ent.fwdLogits (k+1)
        let text := mi.decode [(next : ℤ)]
        let sc := cb s (next : ℤ) text
        if sc.2 then
          let rest := decodeLoop pexp mi cfg ent cb n (k+1) tokens2 newLogits sc.1
          ⟨((next : ℤ), text) :: rest.events, rest.tokens, rest.fwd_calls + 1, rest.cb_state⟩
        else
          ⟨[((next : ℤ), text)], tokens2, 1, sc.1⟩

/-- Embedding of `Engine::Impl::generate_with_callback(prompt, callback, config)`:
encode the prompt; (re)build the KV cache when it was never built or
caching is off; run the priming forward pass (`process_tokens`, the first
forward call, producing `ent.fwdLogits 0`); then run the decode loop.
The returned `fwd_calls` counts the priming call as well. -/
def generate_with_callback {σ : Type} (pexp : ℚ → ℚ) (mi : ModelIface) (prompt : String)
    (cb : σ → ℤ → String → σ × Bool) (s0 : σ) (cfg : GenerationConfig)
    (ent : Entropy) (st : EngineState) : EngineState × LoopResult σ :=
  let tokens := mi.encode prompt
  let st1 := if !st.kv_cache_ready || !cfg.use_cache then initKvCache mi.cfg cfg.max_length st
             else st
  let ll0 := ent.fwdLogits 0
  let res := decodeLoop pexp mi cfg ent cb cfg.max_length 0 tokens ll0 s0
  (st1, { res with fwd_calls := res.fwd_calls + 1 })

/-- Embedding of `Engine::Impl::generate(prompt, config)`: start from `result = prompt`
and run the loop with the callback that appends each text fragment to
`result` and always continues; return the final `result`. -/
def generate (pexp : ℚ → ℚ) (mi : ModelIface) (prompt : String)
    (cfg : GenerationConfig) (ent : Entropy) (st : EngineState) : String :=
  ((generate_with_callback pexp mi prompt
      (fun s _ txt => (s ++ txt, true)) prompt cfg ent st).2).cb_state

/-- The public streaming entry point `Engine::generate_with_callback` with
a plain (stateless) user callback. -/
def generate_streaming (pexp : ℚ → ℚ) (mi : ModelIface) (prompt : String)
    (cb : ℤ → String → Bool) (cfg : GenerationConfig) (ent : Entropy)
    (st : EngineState) : EngineState × LoopResult Unit :=
  generate_with_callback pexp mi prompt (fun _ t txt => ((), cb t txt)) () cfg ent st

/-- Concatenation, in emission order, of the text fragments of a list of
token events. -/
def concat_fragments (evs : List (ℤ × String)) : String :=
  evs.foldr (fun ev acc => ev.2 ++ acc) ""

/-! ### Concrete fixtures used by witnesses and counterexamples -/

/-- A computable stand-in for `expf` with the properties the sampler
relies on: strictly positive everywhere (and strictly monotone). -/
def myExp (q : ℚ) : ℚ := if 0 ≤ q then q + 1 else 1 / (1 - q)

theorem myExp_pos (q : ℚ) : 0 < myExp q := by
  unfold myExp
  split
  · linarith
  · have h1 : (0:ℚ) < 1 - q := by linarith [not_le.mp (by assumption)]
    positivity

/-- A two-token toy model: token `0` decodes to `"a"`, any other token to
`"b"`, the prompt encodes to one `0` token per character, no
end-of-sequence token. -/
def M2 : ModelIface :=
  { cfg := { n_vocab := 2, n_embd := 4, n_layers := 1, n_heads := 2,
             n_kv_heads := 2, max_seq_len := 4 }
    encode := fun s => List.replicate s.length 0
    decode := fun ts => (ts.map (fun t => if t = 0 then "a" else "b")).foldr (· ++ ·) ""
    eos_token := none }

/-- The toy model `M2` with token `0` declared as the end-of-sequence token. -/
def M9 : ModelIface :=
  { M2 with eos_token := some 0 }

/-- A fresh engine (KV cache never built). -/
def st0 : EngineState :=
  { kv_cache_ready := false, key_cache_sizes := [], value_cache_sizes := [] }

/-- One decode step, neutral temperature and penalty, top-p disabled. -/
def cfg1 : GenerationConfig :=
  { max_length := 1, temperature := 1, top_p := 1, repetition_penalty := 1, use_cache := true }

/-- Temperature 0 configuration (header comment: `0.0 = greedy`). -/
def cfg0 : GenerationConfig :=
  { max_length := 1, temperature := 0, top_p := 9/10, repetition_penalty := 1, use_cache := true }

/-- Five decode steps, more than the toy model's `max_seq_len` leaves room for. -/
def cfg7 : GenerationConfig :=
  { max_length := 5, temperature := 1, top_p := 1, repetition_penalty := 1, use_cache := true }

/-- An invalid configuration: `max_length = 0` and `top_p` outside `(0,1]`. -/
def cfg8 : GenerationConfig :=
  { max_length := 0, temperature := 4/5, top_p := 2, repetition_penalty := 11/10, use_cache := true }

/-- Entropy where every forward pass yields logits `[1, 0]` and every
sampling draw is `0`. -/
def entA : Entropy := { fwdLogits := fun _ => [1, 0], draws := fun _ => 0 }

/-- Entropy where every forward pass yields logits `[0, 1]` and every
sampling draw is `0`. -/
def entB : Entropy := { fwdLogits := fun _ => [0, 1], draws := fun _ => 0 }

/-! ### C1 — determinism of `generate` -/

/-- C1: the spec requires `generate` to be deterministic for a fixed
random-source seed/state, relying on no unseeded global randomness.  The
code draws fresh entropy from `std::random_device` on every call (to seed
the sampling `std::mt19937`, and inside the placeholder forward passes),
so the produced text is a function of that uncontrollable entropy: two
runs that differ only in the `std::random_device` output (here `entA`
vs. `entB`) return different strings for the same prompt, config and
engine state. -/
theorem generate_not_reproducible_across_entropy :
    generate myExp M2 "" cfg1 entA st0 ≠ generate myExp M2 "" cfg1 entB st0 := by
  decide

/-! ### C2 — temperature 0 is not greedy in the code -/

/-- C2: with `temperature = 0` the claim (and the header comment
`0.0 = greedy`) requires the arg-max token independently of the random
source.  In the code, `temperature == 0` merely skips the scaling
division and sampling proceeds through softmax and the nucleus draw: on
scores `[1, 0]` (arg-max is token 0) the sampled token is `1` when the
uniform draw is `9/10` and `0` when the draw is `0` — dependent on the
random source and not the arg-max. -/
theorem temperature_zero_not_greedy :
    sample_step myExp cfg0 [1, 0] [] (9/10) = 1 ∧
    sample_step myExp cfg0 [1, 0] [] 0 = 0 ∧
    argmaxList [1, 0] = 0 := by
  decide

/-! ### C3 — streaming/batch equivalence -/

/-- Accumulation invariant of the decode loop: running the loop with the
string-accumulating callback of `generate` yields the state `s` followed
by the concatenated fragments of the run with a pure callback that always
continues.  Both runs consume the same entropy and take the same branches. -/
theorem decodeLoop_acc (pexp : ℚ → ℚ) (mi : ModelIface) (cfg : GenerationConfig)
    (ent : Entropy) :
    ∀ (n k : ℕ) (tokens : List ℤ) (ll : List ℚ) (s : String),
      (decodeLoop pexp mi cfg ent (fun s _ txt => (s ++ txt, true)) n k tokens ll s).cb_state
        = s ++ concat_fragments
            (decodeLoop pexp mi cfg ent (fun (_ : Unit) _ _ => ((), true)) n k tokens ll ()).events
  | 0, _, tokens, ll, s => by
      simp [decodeLoop, concat_fragments]
  | n+1, k, tokens, ll, s => by
      simp only [decodeLoop]
      by_cases he : mi.eos_token =
          some ((sample_step pexp cfg ll tokens (ent.draws k) : ℕ) : ℤ)
      · simp [he, concat_fragments]
      · have ih := decodeLoop_acc pexp mi cfg ent n (k+1)
          (tokens ++ [((sample_step pexp cfg ll tokens (ent.draws k) : ℕ) : ℤ)])
          (ent.fwdLogits (k+1))
          (s ++ mi.decode [((sample_step pexp cfg ll tokens (ent.draws k) : ℕ) : ℤ)])
        simp only [concat_fragments, List.foldr_cons] at ih ⊢
        simp [he, ih, String.append_assoc]

/-- C3: the string returned by the non-streaming `generate` is the prompt
followed by the concatenation, in emission order, of all text fragments
the streaming call delivers to its callback, for the same prompt, config,
random source, and engine state — provided the streaming callback always
asks to continue (so that all fragments are emitted). -/
theorem generate_eq_prompt_append_stream_fragments (pexp : ℚ → ℚ) (mi : ModelIface)
    (prompt : String) (cfg : GenerationConfig) (ent : Entropy) (st : EngineState)
    (cb : ℤ → String → Bool) (hcb : ∀ t s, cb t s = true) :
    generate pexp mi prompt cfg ent st
      = prompt ++ concat_fragments
          ((generate_streaming pexp mi prompt cb cfg ent st).2).events := by
  unfold generate generate_streaming generate_with_callback
  have hfun : (fun (x : Unit) t txt => ((), cb t txt))
      = (fun (_ : Unit) (_ : ℤ) (_ : String) => ((), true)) := by
    funext x t txt
    rw [hcb]
  rw [hfun]
  exact decodeLoop_acc pexp mi cfg ent cfg.max_length 0 (mi.encode prompt)
    (ent.fwdLogits 0) prompt

/-- Witness for C3 at a concrete prompt, config, entropy and callback. -/
theorem generate_eq_prompt_append_stream_fragments_witness :
    generate myExp M2 "hi" cfg1 entA st0
      = "hi" ++ concat_fragments
          ((generate_streaming myExp M2 "hi" (fun _ _ => true) cfg1 entA st0).2).events :=
  generate_eq_prompt_append_stream_fragments myExp M2 "hi" cfg1 entA st0
    (fun _ _ => true) (fun _ _ => rfl)

/-! ### C7 — no capacity check against the KV cache -/

/-- C7: the claim requires the decode loop to stop at the KV cache
capacity boundary and surface a distinct result.  The code has no
capacity check at all: with a 3-token prompt and `max_length = 5` the
total sequence (8) exceeds the model's `max_seq_len` (4), yet the loop
emits all 5 tokens and `generate_with_callback` (whose return carries no
result flag of any kind) returns normally; moreover the per-layer cache
buffers are sized from `config.max_length` (5 positions' worth,
`5 * kv_dim = 20` floats), ignoring `max_seq_len` and the prompt length. -/
theorem capacity_overflow_unchecked :
    ((generate_streaming myExp M2 "abc" (fun _ _ => true) cfg7 entA st0).2).events.length = 5 ∧
    (M2.encode "abc").length + 5 > M2.cfg.max_seq_len ∧
    (generate_streaming myExp M2 "abc" (fun _ _ => true) cfg7 entA st0).1.key_cache_sizes
      = [cfg7.max_length * (M2.cfg.n_kv_heads * (M2.cfg.n_embd / M2.cfg.n_heads))] := by
  decide

/-! ### C8 — invalid configurations are not rejected -/

/-- C8: the claim requires invalid configurations (`max_length = 0`,
`top_p` outside `(0,1]`) to be rejected with an `InvalidConfig` error
before any forward pass.  The code performs no validation and has no
error channel: with `max_length = 0` and `top_p = 2` it still runs the
priming forward pass (`fwd_calls = 1`) and returns normally with an empty
generation. -/
theorem invalid_config_not_rejected :
    ((generate_streaming myExp M2 "a" (fun _ _ => true) cfg8 entA st0).2).events = [] ∧
    ((generate_streaming myExp M2 "a" (fun _ _ => true) cfg8 entA st0).2).fwd_calls = 1 := by
  decide

/-! ### C9 — end-of-sequence stops the loop without emission -/

/-- C9: in a decode step where the tokenizer defines an end-of-sequence
token and the sampled token equals it, the loop returns immediately: no
event is emitted, the token sequence is unchanged (the eos token is not
appended), no further forward-pass call is made, and the callback state
is untouched. -/
theorem eos_token_stops_without_emission {σ : Type} (pexp : ℚ → ℚ) (mi : ModelIface)
    (cfg : GenerationConfig) (ent : Entropy) (cb : σ → ℤ → String → σ × Bool)
    (n k : ℕ) (tokens : List ℤ) (ll : List ℚ) (s : σ) (e : ℤ)
    (he : mi.eos_token = some e)
    (hs : ((sample_step pexp cfg ll tokens (ent.draws k) : ℕ) : ℤ) = e) :
    decodeLoop pexp mi cfg ent cb (n+1) k tokens ll s = ⟨[], tokens, 0, s⟩ := by
  simp only [decodeLoop, hs, he, if_pos]

/-- Witness for C9: with the toy model whose eos token is `0` and a state
where the sampler picks token `0`, a loop with one remaining step stops
with no events, unchanged tokens and zero forward calls. -/
theorem eos_token_stops_without_emission_witness :
    decodeLoop myExp M9 cfg0 entA (fun (s : Unit) _ _ => (s, true)) 1 0 [] [1, 0] ()
      = ⟨[], [], 0, ()⟩ :=
  eos_token_stops_without_emission myExp M9 cfg0 entA _ 0 0 [] [1, 0] () 0 rfl (by decide)

/-! ### C4 — the repetition penalty rule -/

theorem applyRule_one (x : ℚ) : applyRule 1 x = x := by
  unfold applyRule
  split <;> simp

theorem penalizeOne_length (sc : List ℚ) (t : ℤ) (p : ℚ) :
    (penalizeOne sc t p).length = sc.length := by
  unfold penalizeOne
  split <;> simp

theorem apply_repetition_penalty_length (hist : List ℤ) :
    ∀ (sc : List ℚ) (p : ℚ), (apply_repetition_penalty sc hist p).length = sc.length := by
  induction hist with
  | nil => intro sc p; rfl
  | cons t ts ih =>
      intro sc p
      unfold apply_repetition_penalty at ih ⊢
      rw [List.foldl_cons, ih, penalizeOne_length]

theorem penalizeOne_getD (sc : List ℚ) (t : ℤ) (p : ℚ) (i : ℕ) (hi : i < sc.length) :
    (penalizeOne sc t p).getD i 0
      = if t = (i : ℤ) then applyRule p (sc.getD i 0) else sc.getD i 0 := by
  unfold penalizeOne
  by_cases h : 0 ≤ t ∧ t.toNat < sc.length
  · rw [if_pos h]
    by_cases ht : t = (i : ℤ)
    · have htn : t.toNat = i := by omega
      rw [if_pos ht, htn]
      simp [List.getD_eq_getElem?_getD, List.getElem?_set_self hi]
    · have htn : t.toNat ≠ i := by omega
      rw [if_neg ht]
      simp [List.getD_eq_getElem?_getD, List.getElem?_set_ne htn]
  · rw [if_neg h]
    have ht : t ≠ (i : ℤ) := by
      intro he
      exact h ⟨by omega, by omega⟩
    rw [if_neg ht]

theorem apply_repetition_penalty_getD (hist : List ℤ) :
    ∀ (sc : List ℚ) (p : ℚ) (i : ℕ), i < sc.length →
      (apply_repetition_penalty sc hist p).getD i 0
        = (applyRule p)^[hist.count (i : ℤ)] (sc.getD i 0) := by
  induction hist with
  | nil => intro sc p i hi; simp [apply_repetition_penalty]
  | cons t ts ih =>
      intro sc p i hi
      unfold apply_repetition_penalty at ih ⊢
      rw [List.foldl_cons,
        ih (penalizeOne sc t p) p i (by rw [penalizeOne_length]; exact hi),
        penalizeOne_getD sc t p i hi]
      by_cases ht : t = (i : ℤ)
      · rw [if_pos ht]
        have hc : (t :: ts).count (i : ℤ) = ts.count (i : ℤ) + 1 := by
          simp [List.count_cons, ht]
        rw [hc, Function.iterate_succ_apply]
      · rw [if_neg ht, List.count_cons_of_ne (fun he => ht he.symm)]

theorem apply_repetition_penalty_filter (p : ℚ) (n : ℕ) :
    ∀ (hist : List ℤ) (sc : List ℚ), sc.length = n →
      apply_repetition_penalty sc (hist.filter (fun t => decide (0 ≤ t ∧ t < (n : ℤ)))) p
        = apply_repetition_penalty sc hist p := by
  intro hist
  induction hist with
  | nil => intro sc _; rfl
  | cons t ts ih =>
      intro sc hlen
      unfold apply_repetition_penalty at ih ⊢
      by_cases h : 0 ≤ t ∧ t < (n : ℤ)
      · rw [List.filter_cons_of_pos (by simpa using h), List.foldl_cons, List.foldl_cons]
        exact ih _ (by rw [penalizeOne_length]; exact hlen)
      · rw [List.filter_cons_of_neg (by simpa using h), List.foldl_cons]
        have hid : penalizeOne sc t p = sc := by
          unfold penalizeOne
          rw [if_neg]
          intro hc
          exact h ⟨hc.1, by omega⟩
        rw [hid]
        exact ih sc hlen

theorem apply_repetition_penalty_one (sc : List ℚ) (hist : List ℤ) :
    apply_repetition_penalty sc hist 1 = sc := by
  apply List.ext_getElem (apply_repetition_penalty_length hist sc 1)
  intro i h1 h2
  have hiter : ∀ (m : ℕ) (x : ℚ), (applyRule 1)^[m] x = x := by
    intro m
    induction m with
    | zero => intro x; rfl
    | succ m ihm =>
        intro x
        rw [Function.iterate_succ_apply, applyRule_one]
        exact ihm x
  have hg := apply_repetition_penalty_getD hist sc 1 i h2
  rw [hiter] at hg
  simpa [List.getD_eq_getElem?_getD, List.getElem?_eq_getElem, h1, h2] using hg

/-- C4: for every token identifier occurring in the history, the penalty
step applies the sign-dependent rule (`divide the slot by the penalty if
it is positive, multiply it by the penalty otherwise`) to that
identifier's slot, once per occurrence; slots keep their length; history
entries outside `[0, vocab_size)` are ignored (filtering them away
changes nothing); and with penalty 1 the scores are exactly unchanged, as
if the step (which the loop indeed skips when `repetition_penalty == 1.0f`)
had not run. -/
theorem repetition_penalty_spec (scores : List ℚ) (hist : List ℤ) (p : ℚ) :
    (apply_repetition_penalty scores hist p).length = scores.length ∧
    (∀ i, i < scores.length →
      (apply_repetition_penalty scores hist p).getD i 0
        = (applyRule p)^[hist.count (i : ℤ)] (scores.getD i 0)) ∧
    apply_repetition_penalty scores
        (hist.filter (fun t => decide (0 ≤ t ∧ t < (scores.length : ℤ)))) p
      = apply_repetition_penalty scores hist p ∧
    (p = 1 → apply_repetition_penalty scores hist p = scores) :=
  ⟨apply_repetition_penalty_length hist scores p,
   fun i hi => apply_repetition_penalty_getD hist scores p i hi,
   apply_repetition_penalty_filter p scores.length hist scores rfl,
   fun hp => hp ▸ apply_repetition_penalty_one scores hist⟩

/-- Witness for C4: scores `[2, -3]`, history `[0, 0, 5, -1]` (token 0
repeated, tokens 5 and -1 out of range), penalty 2. -/
theorem repetition_penalty_spec_witness :
    (apply_repetition_penalty [2, -3] [0, 0, 5, -1] 2).length = ([2, -3] : List ℚ).length ∧
    (∀ i, i < ([2, -3] : List ℚ).length →
      (apply_repetition_penalty [2, -3] [0, 0, 5, -1] 2).getD i 0
        = (applyRule 2)^[([0, 0, 5, -1] : List ℤ).count (i : ℤ)]
            (([2, -3] : List ℚ).getD i 0)) ∧
    apply_repetition_penalty [2, -3]
        (([0, 0, 5, -1] : List ℤ).filter
          (fun t => decide (0 ≤ t ∧ t < ((([2, -3] : List ℚ).length) : ℤ)))) 2
      = apply_repetition_penalty [2, -3] [0, 0, 5, -1] 2 ∧
    ((2 : ℚ) = 1 → apply_repetition_penalty [2, -3] [0, 0, 5, -1] 2 = [2, -3]) :=
  repetition_penalty_spec [2, -3] [0, 0, 5, -1] 2

/-! ### Sampler helper lemmas (softmax, sorting, cutoff, draw) -/

theorem softmax_length (pexp : ℚ → ℚ) (l : List ℚ) : (softmax pexp l).length = l.length := by
  simp [softmax]

theorem sum_map_div (l : List ℚ) (c : ℚ) : (l.map (fun x => x / c)).sum = l.sum / c := by
  induction l with
  | nil => simp
  | cons x xs ih => simp [ih, add_div]

theorem exps_sum_pos (pexp : ℚ → ℚ) (hp : ∀ x, 0 < pexp x) (l : List ℚ) (hl : l ≠ []) :
    0 < (l.map (fun x => pexp (x - maxLogit l))).sum := by
  apply List.sum_pos
  · intro x hx
    obtain ⟨y, _, rfl⟩ := List.mem_map.mp hx
    exact hp _
  · simpa using hl

theorem softmax_pos (pexp : ℚ → ℚ) (hp : ∀ x, 0 < pexp x) (l : List ℚ) (hl : l ≠ [])
    (q : ℚ) (hq : q ∈ softmax pexp l) : 0 < q := by
  unfold softmax at hq
  obtain ⟨e, he, rfl⟩ := List.mem_map.mp hq
  obtain ⟨y, _, rfl⟩ := List.mem_map.mp he
  exact div_pos (hp _) (exps_sum_pos pexp hp l hl)

theorem softmax_sum (pexp : ℚ → ℚ) (hp : ∀ x, 0 < pexp x) (l : List ℚ) (hl : l ≠ []) :
    (softmax pexp l).sum = 1 := by
  unfold softmax
  rw [sum_map_div]
  exact div_self (ne_of_gt (exps_sum_pos pexp hp l hl))

theorem sortIdx_perm (p : List ℚ) : List.Perm (sortIdx p) (List.range p.length) :=
  List.perm_insertionSort _ _

theorem sortIdx_length (p : List ℚ) : (sortIdx p).length = p.length := by
  rw [(sortIdx_perm p).length_eq, List.length_range]

theorem sortIdx_mem (p : List ℚ) (j : ℕ) (hj : j ∈ sortIdx p) : j < p.length := by
  simpa using (sortIdx_perm p).mem_iff.mp hj

theorem sortIdx_sorted (p : List ℚ) :
    (sortIdx p).Pairwise (fun a b => p.getD b 0 ≤ p.getD a 0) := by
  haveI : IsTotal ℕ (fun a b => p.getD b 0 ≤ p.getD a 0) := ⟨fun a b => le_total _ _⟩
  haveI : IsTrans ℕ (fun a b => p.getD b 0 ≤ p.getD a 0) := ⟨fun _ _ _ hab hbc => le_trans hbc hab⟩
  exact List.sorted_insertionSort _ _

theorem sortIdx_head_max (p : List ℚ) (j : ℕ) (hj : j ∈ sortIdx p) :
    p.getD j 0 ≤ p.getD ((sortIdx p).headD 0) 0 := by
  rcases hsort : sortIdx p with _ | ⟨a, rest⟩
  · rw [hsort] at hj
    simp at hj
  · have hp := sortIdx_sorted p
    rw [hsort] at hj hp
    simp only [List.headD_cons]
    rcases List.mem_cons.mp hj with rfl | hm
    · exact le_refl _
    · exact (List.pairwise_cons.mp hp).1 j hm

theorem map_getD_range_sum (l : List ℚ) :
    ((List.range l.length).map (fun j => l.getD j 0)).sum = l.sum := by
  induction l with
  | nil => simp
  | cons x xs ih =>
      rw [List.length_cons, List.range_succ_eq_map]
      simp only [List.map_cons, List.map_map, List.sum_cons, List.getD_cons_zero]
      rw [show ((fun j => (x :: xs).getD j 0) ∘ Nat.succ) = (fun j => xs.getD j 0) by
            funext j
            simp [Function.comp, List.getD_cons_succ]]
      rw [ih]

theorem sortIdx_map_sum (p : List ℚ) :
    ((sortIdx p).map (fun j => p.getD j 0)).sum = p.sum := by
  rw [((sortIdx_perm p).map (fun j => p.getD j 0)).sum_eq, map_getD_range_sum]

theorem argmaxAux_lt : ∀ (xs : List ℚ) (bv : ℚ) (i best : ℕ), best < i →
    argmaxAux xs bv i best < i + xs.length
  | [], _, _, _, h => by simpa using h
  | x :: xs, bv, i, best, h => by
      simp only [argmaxAux, List.length_cons]
      by_cases hx : x > bv
      · rw [if_pos hx]
        have := argmaxAux_lt xs x (i+1) i (Nat.lt_succ_self i)
        omega
      · rw [if_neg hx]
        have := argmaxAux_lt xs bv (i+1) best (by omega)
        omega

theorem argmaxList_lt (l : List ℚ) (hl : l ≠ []) : argmaxList l < l.length := by
  cases l with
  | nil => exact absurd rfl hl
  | cons x xs =>
      simp only [argmaxList, List.length_cons]
      have := argmaxAux_lt xs x 1 0 Nat.zero_lt_one
      omega

theorem cutoffAux_isSome (p : List ℚ) (tp : ℚ) :
    ∀ (L : List ℕ) (acc : ℚ) (i : ℕ), L ≠ [] →
      tp ≤ acc + ((L.map (fun j => p.getD j 0)).sum) →
      ∃ m, m < L.length ∧ cutoffAux p tp L acc i = some (i + m)
  | [], _, _, h, _ => absurd rfl h
  | j :: js, acc, i, _, hsum => by
      by_cases hc : tp ≤ acc + p.getD j 0
      · refine ⟨0, by simp, ?_⟩
        show (if tp ≤ acc + p.getD j 0 then some i
              else cutoffAux p tp js (acc + p.getD j 0) (i+1)) = some (i + 0)
        rw [if_pos hc]
        simp
      · have hjs : js ≠ [] := by
          intro h0
          subst h0
          simp only [List.map_cons, List.map_nil, List.sum_cons, List.sum_nil,
            add_zero] at hsum
          exact hc (by linarith)
        have hsum' : tp ≤ (acc + p.getD j 0) + ((js.map (fun j => p.getD j 0)).sum) := by
          simp only [List.map_cons, List.sum_cons] at hsum
          linarith
        obtain ⟨m, hm, he⟩ := cutoffAux_isSome p tp js (acc + p.getD j 0) (i+1) hjs hsum'
        refine ⟨m + 1, by simpa using Nat.succ_lt_succ hm, ?_⟩
        show (if tp ≤ acc + p.getD j 0 then some i
              else cutoffAux p tp js (acc + p.getD j 0) (i+1)) = some (i + (m+1))
        rw [if_neg hc, he]
        congr 1
        omega

theorem cutoffAux_some_spec (p : List ℚ) (tp : ℚ) :
    ∀ (L : List ℕ) (acc : ℚ) (i v : ℕ), cutoffAux p tp L acc i = some v →
      i ≤ v ∧ v - i < L.length ∧
      tp ≤ acc + (((L.take (v - i + 1)).map (fun j => p.getD j 0)).sum) ∧
      ∀ m, m < v - i → acc + (((L.take (m + 1)).map (fun j => p.getD j 0)).sum) < tp
  | [], acc, i, v, h => by simp [cutoffAux] at h
  | j :: js, acc, i, v, h => by
      by_cases hc : tp ≤ acc + p.getD j 0
      · simp only [cutoffAux, if_pos hc, Option.some.injEq] at h
        subst h
        refine ⟨le_refl i, by simp, ?_, ?_⟩
        · simpa using hc
        · intro m hm
          omega
      · simp only [cutoffAux, if_neg hc] at h
        obtain ⟨h1, h2, h3, h4⟩ := cutoffAux_some_spec p tp js (acc + p.getD j 0) (i+1) v h
        have hvi : v - i = (v - (i+1)) + 1 := by omega
        refine ⟨by omega, by simp only [List.length_cons]; omega, ?_, ?_⟩
        · rw [hvi, List.take_succ_cons]
          simp only [List.map_cons, List.sum_cons]
          have : acc + (p.getD j 0 + ((js.take (v - (i+1) + 1)).map (fun j => p.getD j 0)).sum)
              = (acc + p.getD j 0) + ((js.take (v - (i+1) + 1)).map (fun j => p.getD j 0)).sum := by
            ring
          rw [this]
          exact h3
        · intro m hm
          cases m with
          | zero =>
              simpa using lt_of_not_ge hc
          | succ m' =>
              rw [List.take_succ_cons]
              simp only [List.map_cons, List.sum_cons]
              have he : acc + (p.getD j 0 + ((js.take (m' + 1)).map (fun j => p.getD j 0)).sum)
                  = (acc + p.getD j 0) + ((js.take (m' + 1)).map (fun j => p.getD j 0)).sum := by
                ring
              rw [he]
              exact h4 m' (by omega)

theorem cutoffIdx_spec (p : List ℚ) (tp : ℚ) (L : List ℕ) (hL : L ≠ [])
    (hsum : tp ≤ (L.map (fun j => p.getD j 0)).sum) :
    cutoffIdx p L tp < L.length ∧
    tp ≤ ((L.take (cutoffIdx p L tp + 1)).map (fun j => p.getD j 0)).sum ∧
    ∀ m, m < cutoffIdx p L tp → ((L.take (m + 1)).map (fun j => p.getD j 0)).sum < tp := by
  obtain ⟨m, hm, he⟩ := cutoffAux_isSome p tp L 0 0 hL (by simpa using hsum)
  have hidx : cutoffIdx p L tp = m := by
    simp [cutoffIdx, he]
  obtain ⟨_, h2, h3, h4⟩ := cutoffAux_some_spec p tp L 0 0 (0 + m) he
  simp only [Nat.zero_add, Nat.sub_zero, zero_add] at h2 h3 h4
  rw [hidx]
  exact ⟨hm, h3, h4⟩

theorem pickAux_mem (p : List ℚ) (r : ℚ) :
    ∀ (L : List ℕ) (c : ℚ) (j : ℕ), pickAux p r L c = some j → j ∈ L
  | [], _, _, h => by simp [pickAux] at h
  | x :: xs, c, j, h => by
      by_cases hc : r ≤ c + p.getD x 0
      · simp only [pickAux, if_pos hc, Option.some.injEq] at h
        subst h
        exact List.mem_cons_self _ _
      · simp only [pickAux, if_neg hc] at h
        exact List.mem_cons_of_mem _ (pickAux_mem p r xs _ j h)

/-- Modelled from the spec: steps 4–5 of §4.2 as worded — "Renormalize
probabilities within the nucleus to sum to 1" then draw with the uniform
number `u`, returning the first nucleus token whose renormalized
cumulative probability reaches `u`.  This definition follows the spec's
words (the code never materializes the renormalized values); it is
compared against `sample_token` for the refinement claim. -/
def specRenormAux (probs : List ℚ) (norm u : ℚ) : List ℕ → ℚ → Option ℕ
  | [], _ => none
  | j :: js, c =>
      if u ≤ c + probs.getD j 0 / norm then some j
      else specRenormAux probs norm u js (c + probs.getD j 0 / norm)

/-- The spec-worded renormalized nucleus draw (see `specRenormAux`). -/
def spec_renorm_pick (probs : List ℚ) (nucleus : List ℕ) (u : ℚ) : Option ℕ :=
  specRenormAux probs ((nucleus.map (fun j => probs.getD j 0)).sum) u nucleus 0

theorem pickAux_renorm (p : List ℚ) (norm u : ℚ) (hn : 0 < norm) :
    ∀ (L : List ℕ) (c : ℚ),
      pickAux p (u * norm) L (norm * c) = specRenormAux p norm u L c
  | [], _ => rfl
  | x :: xs, c => by
      have hacc : norm * c + p.getD x 0 = norm * (c + p.getD x 0 / norm) := by
        field_simp
        ring
      have hcond : (u * norm ≤ norm * c + p.getD x 0) ↔ (u ≤ c + p.getD x 0 / norm) := by
        rw [hacc, mul_comm u norm]
        exact mul_le_mul_left hn
      simp only [pickAux, specRenormAux]
      by_cases hc : u ≤ c + p.getD x 0 / norm
      · rw [if_pos hc, if_pos (hcond.mpr hc)]
      · rw [if_neg hc, if_neg (fun h => hc (hcond.mp h)), hacc]
        exact pickAux_renorm p norm u hn xs (c + p.getD x 0 / norm)

theorem getD_mem_of_lt (l : List ℚ) (j : ℕ) (h : j < l.length) : l.getD j 0 ∈ l := by
  rw [List.getD_eq_getElem?_getD, List.getElem?_eq_getElem h]
  exact List.getElem_mem h

/-! ### C10 — the sampler stays inside the vocabulary -/

/-- C10: for every nonempty score vector, every `top_p` and every draw,
`sample_token` returns an index of the input vector: the arg-max index,
an index of the nucleus prefix, or the first sorted index as fallback are
all below the vector length, so sampling never produces an
out-of-vocabulary token. -/
theorem sample_token_in_vocab (pexp : ℚ → ℚ) (logits : List ℚ) (top_p u : ℚ)
    (hl : logits ≠ []) :
    sample_token pexp logits top_p u < logits.length := by
  have hplen : (softmax pexp logits).length = logits.length := softmax_length pexp logits
  have hpne : softmax pexp logits ≠ [] := by
    intro h0
    apply hl
    have := congrArg List.length h0
    rw [hplen] at this
    exact List.length_eq_zero.mp this
  simp only [sample_token]
  by_cases htp : top_p < 1/1000000
  · rw [if_pos htp, ← hplen]
    exact argmaxList_lt _ hpne
  · rw [if_neg htp]
    split
    · rename_i j hpick
      have hj : j ∈ sortIdx (softmax pexp logits) :=
        List.take_subset _ _ (pickAux_mem _ _ _ _ _ hpick)
      rw [← hplen]
      exact sortIdx_mem _ j hj
    · rcases hs : sortIdx (softmax pexp logits) with _ | ⟨a, rest⟩
      · exfalso
        have := sortIdx_length (softmax pexp logits)
        rw [hs] at this
        simp only [List.length_nil] at this
        exact hpne (List.length_eq_zero.mp (hplen ▸ this.symm))
      · simp only [List.headD_cons]
        rw [← hplen]
        apply sortIdx_mem
        rw [hs]
        exact List.mem_cons_self _ _

/-- Witness for C10 at a concrete nonempty score vector. -/
theorem sample_token_in_vocab_witness :
    sample_token myExp [1, 0] (9/10) 0 < ([1, 0] : List ℚ).length :=
  sample_token_in_vocab myExp [1, 0] (9/10) 0 (by decide)

/-! ### C5 — nucleus construction, renormalized draw, fallback -/

/-- C5: on the nucleus path (`1e-6 ≤ top_p ≤ 1`), after the stable
softmax: the cutoff marks the smallest inclusive prefix of the
descending-probability order whose cumulative probability first reaches
or exceeds `top_p` (so the nucleus holds at least one token); the sampled
token is exactly the draw over the probabilities renormalized within the
nucleus (the spec-worded `spec_renorm_pick`); and whenever the cumulative
scan fails to reach the draw point the sampler deterministically returns
the first sorted index, which carries the highest probability in the
nucleus. -/
theorem nucleus_sampling_spec (pexp : ℚ → ℚ) (logits : List ℚ) (top_p u : ℚ)
    (hpexp : ∀ x, 0 < pexp x) (hl : logits ≠ [])
    (htp0 : 1/1000000 ≤ top_p) (htp1 : top_p ≤ 1)
    (probs : List ℚ) (hp : probs = softmax pexp logits)
    (indices : List ℕ) (hidx : indices = sortIdx probs)
    (k : ℕ) (hk : k = cutoffIdx probs indices top_p)
    (nucleus : List ℕ) (hnuc : nucleus = indices.take (k + 1)) :
    (top_p ≤ ((nucleus.map (fun j => probs.getD j 0)).sum) ∧
     (∀ m, m < k → ((indices.take (m + 1)).map (fun j => probs.getD j 0)).sum < top_p) ∧
     0 < nucleus.length) ∧
    sample_token pexp logits top_p u
      = (match spec_renorm_pick probs nucleus u with
         | some j => j
         | none => indices.headD 0) ∧
    (pickAux probs (u * ((nucleus.map (fun j => probs.getD j 0)).sum)) nucleus 0 = none →
      sample_token pexp logits top_p u = indices.headD 0 ∧
      ∀ j ∈ nucleus, probs.getD j 0 ≤ probs.getD (indices.headD 0) 0) := by
  subst hnuc hk hidx hp
  have hplen : (softmax pexp logits).length = logits.length := softmax_length pexp logits
  have hpne : softmax pexp logits ≠ [] := by
    intro h0
    apply hl
    have := congrArg List.length h0
    rw [hplen] at this
    exact List.length_eq_zero.mp this
  have hLlen : (sortIdx (softmax pexp logits)).length = (softmax pexp logits).length :=
    sortIdx_length _
  have hLne : sortIdx (softmax pexp logits) ≠ [] := by
    intro h0
    apply hpne
    have := congrArg List.length h0
    rw [hLlen] at this
    exact List.length_eq_zero.mp this
  have hidxsum : ((sortIdx (softmax pexp logits)).map
      (fun j => (softmax pexp logits).getD j 0)).sum = 1 := by
    rw [sortIdx_map_sum]
    exact softmax_sum pexp hpexp logits hl
  obtain ⟨hklt, hreach, hmin⟩ := cutoffIdx_spec (softmax pexp logits) top_p
    (sortIdx (softmax pexp logits)) hLne (by rw [hidxsum]; exact htp1)
  have hnucne : (sortIdx (softmax pexp logits)).take
      (cutoffIdx (softmax pexp logits) (sortIdx (softmax pexp logits)) top_p + 1) ≠ [] := by
    intro h0
    have := congrArg List.length h0
    rw [List.length_take] at this
    simp only [List.length_nil] at this
    have hLpos : 0 < (sortIdx (softmax pexp logits)).length := List.length_pos.mpr hLne
    omega
  have hmempos : ∀ q ∈ ((sortIdx (softmax pexp logits)).take
      (cutoffIdx (softmax pexp logits) (sortIdx (softmax pexp logits)) top_p + 1)).map
        (fun j => (softmax pexp logits).getD j 0), 0 < q := by
    intro q hq
    obtain ⟨j, hj, rfl⟩ := List.mem_map.mp hq
    have hjlt : j < (softmax pexp logits).length :=
      sortIdx_mem _ j (List.take_subset _ _ hj)
    exact softmax_pos pexp hpexp logits hl _ (getD_mem_of_lt _ j hjlt)
  have hnormpos : 0 < (((sortIdx (softmax pexp logits)).take
      (cutoffIdx (softmax pexp logits) (sortIdx (softmax pexp logits)) top_p + 1)).map
        (fun j => (softmax pexp logits).getD j 0)).sum := by
    apply List.sum_pos _ hmempos
    intro h0
    exact hnucne (List.map_eq_nil_iff.mp h0)
  have hren : pickAux (softmax pexp logits)
      (u * (((sortIdx (softmax pexp logits)).take
        (cutoffIdx (softmax pexp logits) (sortIdx (softmax pexp logits)) top_p + 1)).map
          (fun j => (softmax pexp logits).getD j 0)).sum)
      ((sortIdx (softmax pexp logits)).take
        (cutoffIdx (softmax pexp logits) (sortIdx (softmax pexp logits)) top_p + 1)) 0
      = spec_renorm_pick (softmax pexp logits)
          ((sortIdx (softmax pexp logits)).take
            (cutoffIdx (softmax pexp logits) (sortIdx (softmax pexp logits)) top_p + 1)) u := by
    have h0 := pickAux_renorm (softmax pexp logits) _ u hnormpos
      ((sortIdx (softmax pexp logits)).take
        (cutoffIdx (softmax pexp logits) (sortIdx (softmax pexp logits)) top_p + 1)) 0
    rw [mul_zero] at h0
    exact h0
  have hnotlt : ¬ top_p < 1/1000000 := not_lt.mpr htp0
  refine ⟨⟨hreach, hmin, List.length_pos.mpr hnucne⟩, ?_, ?_⟩
  · simp only [sample_token]
    rw [if_neg hnotlt, hren]
  · intro hnone
    constructor
    · simp only [sample_token]
      rw [if_neg hnotlt, hnone]
    · intro j hj
      exact sortIdx_head_max _ j (List.take_subset _ _ hj)

/-- Witness fixture: the softmax of the scores `[1, 0]` under `myExp`. -/
def probsW : List ℚ := softmax myExp [1, 0]

/-- Witness fixture: the descending-probability index order of `probsW`. -/
def idxW : List ℕ := sortIdx probsW

/-- Witness fixture: the cutoff position of `probsW` at `top_p = 9/10`. -/
def cutW : ℕ := cutoffIdx probsW idxW (9/10)

/-- Witness fixture: the nucleus of `probsW` at `top_p = 9/10`. -/
def nucW : List ℕ := idxW.take (cutW + 1)

/-- Witness for C5 at scores `[1, 0]`, `top_p = 9/10`, draw `0`. -/
theorem nucleus_sampling_spec_witness :
    ((9/10 : ℚ) ≤ ((nucW.map (fun j => probsW.getD j 0)).sum) ∧
     (∀ m, m < cutW → ((idxW.take (m + 1)).map (fun j => probsW.getD j 0)).sum < 9/10) ∧
     0 < nucW.length) ∧
    sample_token myExp [1, 0] (9/10) 0
      = (match spec_renorm_pick probsW nucW 0 with
         | some j => j
         | none => idxW.headD 0) ∧
    (pickAux probsW (0 * ((nucW.map (fun j => probsW.getD j 0)).sum)) nucW 0 = none →
      sample_token myExp [1, 0] (9/10) 0 = idxW.headD 0 ∧
      ∀ j ∈ nucW, probsW.getD j 0 ≤ probsW.getD (idxW.headD 0) 0) :=
  nucleus_sampling_spec myExp [1, 0] (9/10) 0 myExp_pos (by decide)
    (by decide) (by decide) probsW rfl idxW rfl cutW rfl nucW rfl

/-! ### C6 — when the arg-max short-circuit fires -/

/-- C6 counterexample: the claim states the nucleus step is skipped in
favor of the arg-max when `top_p ≥ 1 − ε`, in particular that `top_p = 1`
yields the single highest-probability token.  The code's skip condition
is `top_p < 1e-6` instead: with `top_p = 1`, scores `[1, 0]` and draw
`9/10` the sampler returns token `1`, not the highest-probability token
`0` — it drew from the full distribution. -/
theorem top_p_one_samples_full_distribution :
    sample_token myExp [1, 0] 1 (9/10) = 1 ∧
    argmaxList (softmax myExp [1, 0]) = 0 := by
  decide

/-- C6 (amended): `sample_token` takes the arg-max short-circuit exactly
when `top_p < 1e-6` (temperature is not consulted by the sampler at all),
and with `top_p = 1` the cutoff lands on the last sorted position — the
nucleus is the entire vocabulary, so the draw runs over the full
distribution rather than returning the arg-max. -/
theorem argmax_shortcut_iff_top_p_small (pexp : ℚ → ℚ) (logits : List ℚ) (top_p u : ℚ)
    (hpexp : ∀ x, 0 < pexp x) (hl : logits ≠ []) :
    (top_p < 1/1000000 →
      sample_token pexp logits top_p u = argmaxList (softmax pexp logits)) ∧
    (top_p = 1 →
      cutoffIdx (softmax pexp logits) (sortIdx (softmax pexp logits)) top_p
        = logits.length - 1) := by
  have hplen : (softmax pexp logits).length = logits.length := softmax_length pexp logits
  have hpne : softmax pexp logits ≠ [] := by
    intro h0
    apply hl
    have := congrArg List.length h0
    rw [hplen] at this
    exact List.length_eq_zero.mp this
  have hLlen : (sortIdx (softmax pexp logits)).length = (softmax pexp logits).length :=
    sortIdx_length _
  have hLne : sortIdx (softmax pexp logits) ≠ [] := by
    intro h0
    apply hpne
    have := congrArg List.length h0
    rw [hLlen] at this
    exact List.length_eq_zero.mp this
  constructor
  · intro htp
    simp only [sample_token]
    rw [if_pos htp]
  · intro htp
    subst htp
    have hidxsum : ((sortIdx (softmax pexp logits)).map
        (fun j => (softmax pexp logits).getD j 0)).sum = 1 := by
      rw [sortIdx_map_sum]
      exact softmax_sum pexp hpexp logits hl
    obtain ⟨hklt, hreach, _⟩ := cutoffIdx_spec (softmax pexp logits) 1
      (sortIdx (softmax pexp logits)) hLne (by rw [hidxsum])
    set L := sortIdx (softmax pexp logits) with hL
    set kk := cutoffIdx (softmax pexp logits) L 1 with hkk
    by_cases hend : kk + 1 < L.length
    · exfalso
      have hsplit : ((L.take (kk+1)).map (fun j => (softmax pexp logits).getD j 0)).sum
          + ((L.drop (kk+1)).map (fun j => (softmax pexp logits).getD j 0)).sum
          = (L.map (fun j => (softmax pexp logits).getD j 0)).sum := by
        rw [← List.sum_append, ← List.map_append, List.take_append_drop]
      have hdropne : L.drop (kk+1) ≠ [] := by
        intro h0
        have := congrArg List.length h0
        rw [List.length_drop] at this
        simp only [List.length_nil] at this
        omega
      have hdroppos : 0 < ((L.drop (kk+1)).map
          (fun j => (softmax pexp logits).getD j 0)).sum := by
        apply List.sum_pos
        · intro q hq
          obtain ⟨j, hj, rfl⟩ := List.mem_map.mp hq
          have hjlt : j < (softmax pexp logits).length :=
            sortIdx_mem _ j (List.drop_subset _ _ hj)
          exact softmax_pos pexp hpexp logits hl _ (getD_mem_of_lt _ j hjlt)
        · intro h0
          exact hdropne (List.map_eq_nil_iff.mp h0)
      rw [hidxsum] at hsplit
      linarith
    · rw [← hplen, ← hLlen]
      omega

/-- Witness for C6's amended statement at scores `[1, 0]`, `top_p = 1`. -/
theorem argmax_shortcut_iff_top_p_small_witness :
    ((1 : ℚ) < 1/1000000 →
      sample_token myExp [1, 0] 1 (9/10) = argmaxList (softmax myExp [1, 0])) ∧
    ((1 : ℚ) = 1 →
      cutoffIdx (softmax myExp [1, 0]) (sortIdx (softmax myExp [1, 0])) 1
        = ([1, 0] : List ℚ).length - 1) :=
  argmax_shortcut_iff_top_p_small myExp [1, 0] 1 (9/10) myExp_pos (by decide)

end Embee
